import Mathlib

/-!
Shallow embedding of the yarpc/metrics core (go.uber.org/net/metrics):
scrubbing and metadata construction (metadata.go), the metric registry
(coreRegistry), counters (counter.go), vectors (value.go), histograms,
snapshots and the push flag on a Root (root.go).  Helpers that the
repository keeps in files absent from the source tree (the scrubbing
functions, the digester, the histogram bucket logic, the tag-pair
ordering and the pusher internals) are modelled from the specification
and marked as such in their doc comments.
-/

namespace Metrics

/-- Modelled from the spec: the scrubbing helpers are absent from src; the
spec says scrubbing keeps exactly the characters A-Z, a-z, 0-9 and underscore. -/
def allowedChar (c : Char) : Bool :=
  (65 ≤ c.toNat && c.toNat ≤ 90) || (97 ≤ c.toNat && c.toNat ≤ 122) ||
    (48 ≤ c.toNat && c.toNat ≤ 57) || (c == '_')

/-- Modelled from the spec: a disallowed character is replaced by an underscore. -/
def scrubChar (c : Char) : Char := if allowedChar c then c else '_'

/-- Modelled from the spec: scrubName replaces every character outside
the allowed class with an underscore. -/
def scrubName (s : String) : String := String.mk (s.data.map scrubChar)

/-- Modelled from the spec: scrubLabelValue replaces every character outside
the allowed class with an underscore. -/
def scrubLabelValue (s : String) : String := String.mk (s.data.map scrubChar)

/-- Go's byte-wise string order, embedded as codepoint order. -/
def charLtB (a b : Char) : Bool := decide (a.toNat < b.toNat)

/-- Generic lexicographic order on lists, from a strict order on elements. -/
def lexLt {α : Type} (lt : α → α → Bool) : List α → List α → Bool
  | [], [] => false
  | [], _ :: _ => true
  | _ :: _, [] => false
  | a :: as, b :: bs => if lt a b then true else if lt b a then false else lexLt lt as bs

/-- Lexicographic product order, first component first. -/
def prodLt {α β : Type} (ltA : α → α → Bool) (ltB : β → β → Bool)
    (x y : α × β) : Bool :=
  if ltA x.1 y.1 then true else if ltA y.1 x.1 then false else ltB x.2 y.2

def strLt (a b : String) : Bool := lexLt charLtB a.data b.data

def strLe (a b : String) : Prop := strLt b a = false

instance : DecidableRel strLe := fun a b => inferInstanceAs (Decidable (strLt b a = false))

/-- sort.Strings from newMetadata, sorting ascending by Go string order. -/
def sortStrings (l : List String) : List String := List.insertionSort strLe l

/-- Modelled from the spec: the digester is absent from src; it accumulates
ordered string fragments into a stable identity key, represented here as the
list of fragments (each fragment is the prefix concatenated with the string). -/
def digestAdd (d : List String) (pre s : String) : List String := d ++ [pre ++ s]

/-- metadata from metadata.go: canonical name, help, dimensions signature,
push flag, sorted scrubbed constant pairs and the user-ordered variable
label names (unscrubbed). -/
structure Metadata where
  Name : String
  Help : String
  Dims : List String
  DisablePush : Bool
  constPairs : List (String × String)
  variableLabelNames : List String
deriving DecidableEq

/-- makeDims from metadata.go: digest of the name, the constant label names,
and the variable label names prefixed with a dollar sign. -/
def makeDims (name : String) (constNames sortedVarNames : List String) : List String :=
  let d := digestAdd [] "" name
  let d := constNames.foldl (fun acc n => digestAdd acc "" n) d
  sortedVarNames.foldl (fun acc n => digestAdd acc "$" n) d

/-- metadata.writeID from metadata.go: digest of the name and the constant
label pairs, in order. -/
def Metadata.writeID (m : Metadata) : List String :=
  m.constPairs.foldl (fun acc p => digestAdd (digestAdd acc "" p.1) "" p.2)
    (digestAdd [] "" m.Name)

/-- Ordering pairs by label name, as in metadata.MergeLabels' sort.Slice. -/
def pairNameLe (p q : String × String) : Prop := strLt q.1 p.1 = false

instance : DecidableRel pairNameLe :=
  fun p q => inferInstanceAs (Decidable (strLt q.1 p.1 = false))

/-- metadata.MergeLabels from metadata.go: constant pairs when no variable
labels are supplied, otherwise the constant pairs plus the scrubbed variable
name/value pairs, sorted by label name. -/
def Metadata.MergeLabels (m : Metadata) (variableLabels : List String) :
    List (String × String) :=
  if variableLabels.length = 0 then m.constPairs
  else
    List.insertionSort pairNameLe
      (m.constPairs ++
        (List.range m.variableLabelNames.length).map fun i =>
          (scrubName (m.variableLabelNames.getD i ""),
            scrubLabelValue (variableLabels.getD (2 * i + 1) "")))

/-- Opts from opts.go; the Go constant-label map is embedded as an
association list of key/value pairs. -/
structure Opts where
  Name : String
  Help : String
  Labels : List (String × String)
  VariableLabels : List String
  DisablePush : Bool
deriving DecidableEq

/-- A Go map read o.Labels[name] over the association-list embedding. -/
def lookupLabel : List (String × String) → String → String
  | [], _ => ""
  | p :: ps, k => if p.1 = k then p.2 else lookupLabel ps k

/-- Errors from newMetadata in metadata.go. -/
inductive MetaErr where
  | dupConst (n : String)
  | dupVar (n : String)
  | varConstClash (n : String)
deriving DecidableEq

/-- The constant-label loop of newMetadata: scrub each name in turn and fail
on the first post-scrub duplicate (the Go code keys a set by scrubbed name). -/
def findDupScrub (seen : List String) : List String → Option String
  | [] => none
  | n :: rest =>
    let sn := scrubName n
    if sn ∈ seen then some sn else findDupScrub (sn :: seen) rest

/-- The variable-label loop of newMetadata: fail on a post-scrub duplicate
among variable names or on a clash with a scrubbed constant name. -/
def findVarErr (constSet : List String) (seen : List String) :
    List String → Option MetaErr
  | [] => none
  | n :: rest =>
    let sn := scrubName n
    if sn ∈ seen then some (.dupVar sn)
    else if sn ∈ constSet then some (.varConstClash sn)
    else findVarErr constSet (sn :: seen) rest

/-- newMetadata from metadata.go: sort the constant label names, scrub and
deduplicate them, scrub and check the variable label names, then build the
canonical metadata record. -/
def newMetadata (o : Opts) : Except MetaErr Metadata :=
  let sortedConstNames := sortStrings (o.Labels.map Prod.fst)
  match findDupScrub [] sortedConstNames with
  | some n => .error (.dupConst n)
  | none =>
    let sortedScrubbedConstNames := sortedConstNames.map scrubName
    match findVarErr sortedScrubbedConstNames [] o.VariableLabels with
    | some e => .error e
    | none =>
      let sortedScrubbedVarNames := sortStrings (o.VariableLabels.map scrubName)
      let scrubbed := scrubName o.Name
      .ok
        { Name := scrubbed
          Help := o.Help
          Dims := makeDims scrubbed sortedScrubbedConstNames sortedScrubbedVarNames
          DisablePush := o.DisablePush
          constPairs := sortedConstNames.map fun k =>
            (scrubName k, scrubLabelValue (lookupLabel o.Labels k))
          variableLabelNames := o.VariableLabels }

/-- Errors from metadata.ValidateVariableLabels in metadata.go: the Prometheus
inconsistent-cardinality error, or a variable label supplied out of the
declared order. -/
inductive VErr where
  | cardinality
  | order (idx : Nat) (expected got : String)
deriving DecidableEq

/-- The index loop of ValidateVariableLabels: compare the declared name at
position i against the supplied string at position 2i. -/
def orderScan (labels : List String) : Nat → List String → Option VErr
  | _, [] => none
  | i, e :: es =>
    let g := labels.getD (2 * i) ""
    if e ≠ g then some (.order i e g) else orderScan labels (i + 1) es

/-- metadata.ValidateVariableLabels from metadata.go: check the count is twice
the declared variable-label count, then check names in declared order. -/
def Metadata.ValidateVariableLabels (m : Metadata) (labels : List String) :
    Option VErr :=
  if labels.length ≠ 2 * m.variableLabelNames.length then some .cardinality
  else orderScan labels 0 m.variableLabelNames

/-- A Counter backed by a value cell (counter.go, value.go): metadata, the
pre-rendered label pairs, and the atomic 64-bit cell. -/
structure CounterV where
  meta : Metadata
  labelPairs : List (String × String)
  val : Int
deriving DecidableEq

/-- newDynamicCounter from counter.go via newDynamicValue in value.go. -/
def newDynamicCounter (m : Metadata) (variableLabels : List String) : CounterV :=
  { meta := m, labelPairs := m.MergeLabels variableLabels, val := 0 }

/-- A CounterVector's state (value.go vector): metadata plus the map from the
digest of the scrubbed variable label values to the created metric. -/
structure CVector where
  meta : Metadata
  metrics : List (List String × CounterV)
deriving DecidableEq

/-- A Go map read over the digest-keyed metric map. -/
def lookupKey {α : Type} : List (List String × α) → List String → Option α
  | [], _ => none
  | p :: ps, k => if p.1 = k then p.2 else lookupKey ps k

/-- The digest loop of vector.getOrCreate in value.go: one fragment per
scrubbed variable label value. -/
def valsDigest (labels : List String) : List String :=
  (List.range (labels.length / 2)).foldl
    (fun d i => digestAdd d "" (scrubLabelValue (labels.getD (2 * i + 1) ""))) []

/-- The scrubbed variable label values of a supplied name/value list. -/
def scrubbedVals (labels : List String) : List String :=
  (List.range (labels.length / 2)).map fun i =>
    scrubLabelValue (labels.getD (2 * i + 1) "")

/-- vector.getOrCreate plus vector.newValue from value.go, for counter
vectors: validate, probe the map by the digest of the scrubbed values,
re-check under the exclusive lock, and otherwise create via the factory. -/
def CVector.getOrCreate (vec : CVector) (labels : List String) :
    Except VErr (CounterV × CVector) :=
  match vec.meta.ValidateVariableLabels labels with
  | some e => .error e
  | none =>
    match lookupKey vec.metrics (valsDigest labels) with
    | some m => .ok (m, vec)
    | none =>
      match lookupKey vec.metrics (valsDigest labels) with
      | some m => .ok (m, vec)
      | none =>
        .ok (newDynamicCounter vec.meta labels,
          { vec with metrics :=
              vec.metrics ++ [(valsDigest labels, newDynamicCounter vec.meta labels)] })

/-- CounterVector.Get from counter.go on a non-nil vector: forward to
getOrCreate. -/
def CVector.get (vec : CVector) (labels : List String) :
    Except VErr (CounterV × CVector) :=
  vec.getOrCreate labels

/-- CounterVector.MustGet from counter.go on a non-nil vector: forward to Get
and panic on error; the second component records whether it panicked. -/
def CVector.mustGet (vec : CVector) (labels : List String) :
    Option (CounterV × CVector) × Bool :=
  match vec.get labels with
  | .error _ => (none, true)
  | .ok r => (some r, false)

/-- Two's-complement wrap-around of Go's int64 arithmetic. -/
def wrap64 (x : Int) : Int := (x + 2 ^ 63) % 2 ^ 64 - 2 ^ 63

/-- atomic.Int64.Add: add and return the new value, with 64-bit wrap-around. -/
def valueAdd (v n : Int) : Int := wrap64 (v + n)

/-- Counter.Add from counter.go on a non-nil counter, state-passing: returns
the new cell value and the returned total. -/
def counterAdd (v n : Int) : Int × Int :=
  if n ≤ 0 then (v, v) else (valueAdd v n, valueAdd v n)

/-- Counter.Add including the nil-receiver no-op branch from counter.go;
none embeds a nil pointer. -/
def counterAddP : Option Int → Int → Option Int × Int
  | none, _ => (none, 0)
  | some v, n => ((counterAdd v n).1, (counterAdd v n).2)

/-- Counter.Inc including the nil-receiver no-op branch from counter.go. -/
def counterIncP : Option Int → Option Int × Int
  | none => (none, 0)
  | some v => (valueAdd v 1, valueAdd v 1)

/-- Counter.Load including the nil-receiver no-op branch from counter.go. -/
def counterLoadP : Option Int → Int
  | none => 0
  | some v => v

/-- Modelled from the spec: the histogram bucket state is absent from src
(the bodies in histogram.go are stubs); ascending upper bounds, one counter
per bucket, and the implicit overflow bucket. -/
structure Histo where
  bounds : List Int
  counts : List Nat
  overflow : Nat
deriving DecidableEq

def incAt : List Nat → Nat → List Nat
  | [], _ => []
  | c :: cs, 0 => (c + 1) :: cs
  | c :: cs, i + 1 => c :: incAt cs i

/-- Modelled from the spec: Observe locates the first bucket whose upper
bound is at least the observed value and increments its counter, or the
overflow bucket when no bound qualifies. -/
def observeInt (h : Histo) (n : Int) : Histo :=
  match List.findIdx? (fun b => n ≤ b) h.bounds with
  | some i => { h with counts := incAt h.counts i }
  | none => { h with overflow := h.overflow + 1 }

def int64Max : Int := 2 ^ 63 - 1

/-- Modelled from the spec: the flattened ascending snapshot view emits each
bucket's upper bound once per observation counted in that bucket, with the
overflow bucket reported as the maximum representable value. -/
def histoValues (h : Histo) : List Int :=
  (h.bounds.zip h.counts).flatMap (fun p => List.replicate p.2 p.1) ++
    List.replicate h.overflow int64Max

/-- A HistogramVector's state; only the nil-dispatch of Get and MustGet in
histogram.go is needed here, so entries map value digests to histograms. -/
structure HVector where
  meta : Metadata
  unit : Int
  entries : List (List String × Histo)
deriving DecidableEq

/-- Modelled from the spec: the non-nil body of HistogramVector.Get is absent
from src; it validates and fetches or creates the per-combination histogram. -/
def HVector.getCore (hv : HVector) (labels : List String) :
    Except VErr (Option Histo) :=
  match hv.meta.ValidateVariableLabels labels with
  | some e => .error e
  | none => .ok (lookupKey hv.entries (valsDigest labels))

/-- HistogramVector.Get from histogram.go including the nil-receiver branch:
a nil vector returns a nil histogram and no error. -/
def hvGetP : Option HVector → List String → Except VErr (Option Histo)
  | none, _ => .ok none
  | some hv, labels => hv.getCore labels

/-- HistogramVector.MustGet from histogram.go including the nil-receiver
branch; the second component records whether it panicked. -/
def hvMustGetP (hv : Option HVector) (labels : List String) :
    Option Histo × Bool :=
  match hv with
  | none => (none, false)
  | some h =>
    match hvGetP (some h) labels with
    | .error _ => (none, true)
    | .ok r => (r, false)

/-- A SimpleSnapshot (snapshot of any non-histogram metric): name, tag pairs
and current value. -/
structure SimpleSnapshot where
  Name : String
  Labels : List (String × String)
  Value : Int
deriving DecidableEq

/-- A HistogramSnapshot: name, tag pairs, duration unit and the flattened
ascending observation view. -/
structure HistogramSnapshot where
  Name : String
  Labels : List (String × String)
  Unit : Int
  Values : List Int
deriving DecidableEq

/-- Modelled from the spec: the Labels/tag-pair ordering helper is absent
from src; tag-pair lists are compared lexicographically, pairs by name and
then by value. -/
def pairsLess (a b : List (String × String)) : Bool :=
  lexLt (prodLt strLt strLt) a b

/-- SimpleSnapshot.less: by name, then by tag-pair ordering. -/
def simpleLess (a b : SimpleSnapshot) : Bool :=
  if a.Name ≠ b.Name then strLt a.Name b.Name else pairsLess a.Labels b.Labels

/-- HistogramSnapshot.less: by name, then by tag-pair ordering. -/
def histoLess (a b : HistogramSnapshot) : Bool :=
  if a.Name ≠ b.Name then strLt a.Name b.Name else pairsLess a.Labels b.Labels

def simpleLe (a b : SimpleSnapshot) : Prop := simpleLess b a = false

instance : DecidableRel simpleLe :=
  fun a b => inferInstanceAs (Decidable (simpleLess b a = false))

def histoLe (a b : HistogramSnapshot) : Prop := histoLess b a = false

instance : DecidableRel histoLe :=
  fun a b => inferInstanceAs (Decidable (histoLess b a = false))

/-- The closed set of metric kinds a registry can hold: scalar counters,
gauges and histograms, and their vector variants.  Scalars carry their
metadata and current state; vector variants carry one entry per created
variable-label combination. -/
inductive Metric where
  | counter (meta : Metadata) (val : Int)
  | gauge (meta : Metadata) (val : Int)
  | histo (meta : Metadata) (unit : Int) (h : Histo)
  | counterVec (meta : Metadata) (entries : List (List (String × String) × Int))
  | gaugeVec (meta : Metadata) (entries : List (List (String × String) × Int))
  | histoVec (meta : Metadata) (unit : Int)
      (entries : List (List (String × String) × Histo))
deriving DecidableEq

/-- The describe method each metric kind implements. -/
def Metric.describe : Metric → Metadata
  | .counter m _ => m
  | .gauge m _ => m
  | .histo m _ _ => m
  | .counterVec m _ => m
  | .gaugeVec m _ => m
  | .histoVec m _ _ => m

/-- The identity digest of a metric, via metadata.writeID. -/
def metricId (m : Metric) : List String := m.describe.writeID

/-- coreRegistry state: the name-to-dimensions map, the identity digest set,
and the ordered metric list. -/
structure CoreRegistry where
  dimsByName : List (String × List String)
  ids : List (List String)
  metrics : List Metric
deriving DecidableEq

def emptyRegistry : CoreRegistry := { dimsByName := [], ids := [], metrics := [] }

/-- A Go map read of the name-to-dimensions map. -/
def lookupDims : List (String × List String) → String → Option (List String)
  | [], _ => none
  | p :: ps, k => if p.1 = k then some p.2 else lookupDims ps k

/-- A Go map write: replace the binding when present, append otherwise. -/
def insertDims (k : String) (v : List String) :
    List (String × List String) → List (String × List String)
  | [] => [(k, v)]
  | p :: ps => if p.1 = k then (k, v) :: ps else p :: insertDims k v ps

/-- The errors coreRegistry.register can return. -/
inductive RegErr where
  | inconsistentDims (name : String)
  | duplicateId (name : String)
deriving DecidableEq

/-- The second half of coreRegistry.register: the identity-digest check and,
on success, the three state updates. -/
def registerRest (c : CoreRegistry) (m : Metric) (meta : Metadata)
    (id : List String) : CoreRegistry × Option RegErr :=
  if id ∈ c.ids then (c, some (.duplicateId meta.Name))
  else
    ({ dimsByName := insertDims meta.Name meta.Dims c.dimsByName
       ids := c.ids ++ [id]
       metrics := c.metrics ++ [m] }, none)

/-- coreRegistry.register from the registry source: fail when an existing
metric with the same name has different dimensions, fail on a duplicate
identity digest, otherwise record both and append the metric.  Both error
branches return before any state update, so the pre-state is returned. -/
def register (c : CoreRegistry) (m : Metric) : CoreRegistry × Option RegErr :=
  match lookupDims c.dimsByName m.describe.Name with
  | some existing =>
    if existing ≠ m.describe.Dims then (c, some (.inconsistentDims m.describe.Name))
    else registerRest c m m.describe m.describe.writeID
  | none => registerRest c m m.describe m.describe.writeID

/-- A Snapshot: the three slices the registry snapshot returns. -/
structure Snap where
  Counters : List SimpleSnapshot
  Gauges : List SimpleSnapshot
  Histograms : List HistogramSnapshot
deriving DecidableEq

/-- Snapshot.add: dispatch on the metric kind and append its snapshots. -/
def snapAdd (s : Snap) (m : Metric) : Snap :=
  match m with
  | .counter meta v =>
    { s with Counters := s.Counters ++ [⟨meta.Name, meta.constPairs, v⟩] }
  | .gauge meta v =>
    { s with Gauges := s.Gauges ++ [⟨meta.Name, meta.constPairs, v⟩] }
  | .histo meta unit h =>
    { s with Histograms :=
        s.Histograms ++ [⟨meta.Name, meta.constPairs, unit, histoValues h⟩] }
  | .counterVec meta entries =>
    { s with Counters :=
        s.Counters ++ entries.map fun e => ⟨meta.Name, e.1, e.2⟩ }
  | .gaugeVec meta entries =>
    { s with Gauges :=
        s.Gauges ++ entries.map fun e => ⟨meta.Name, e.1, e.2⟩ }
  | .histoVec meta unit entries =>
    { s with Histograms :=
        s.Histograms ++ entries.map fun e => ⟨meta.Name, e.1, unit, histoValues e.2⟩ }

/-- Snapshot.sort: sort each of the three slices by its less relation. -/
def snapSort (s : Snap) : Snap :=
  { Counters := List.insertionSort simpleLe s.Counters
    Gauges := List.insertionSort simpleLe s.Gauges
    Histograms := List.insertionSort histoLe s.Histograms }

/-- coreRegistry.snapshot: walk the ordered metric list, add every metric's
snapshots, then sort. -/
def registrySnapshot (c : CoreRegistry) : Snap :=
  snapSort (c.metrics.foldl snapAdd ⟨[], [], []⟩)

/-- The push-related state of a Root: the sticky pushing flag. -/
structure RootSt where
  pushing : Bool
deriving DecidableEq

def newRoot : RootSt := { pushing := false }

/-- Root.Push from root.go: atomically swap the pushing flag to true and fail
when it already was true.  The Bool reports success. -/
def rootPush (r : RootSt) : RootSt × Bool :=
  if r.pushing then ({ pushing := true }, false) else ({ pushing := true }, true)

/-- Modelled from the spec: the pusher is absent from src; its Stop handle
terminates the loop and, per the comment in Root.Push, deliberately leaves
the Root's pushing flag set (the pusher holds no reference to the flag). -/
def rootStop (r : RootSt) : RootSt := r

/-- Operations a caller can perform on a root after a successful Push. -/
inductive RootOp where
  | push
  | stop
deriving DecidableEq

/-- Run a sequence of Push and Stop calls against a root's push state. -/
def runOps (r : RootSt) : List RootOp → RootSt
  | [] => r
  | .push :: rest => runOps (rootPush r).1 rest
  | .stop :: rest => runOps (rootStop r) rest

/-- The correspondence between the registry's two lookup structures and its
ordered metric list: the name map holds exactly the registered names with
their dimensions, and the id set holds exactly the registered digests. -/
def wf (c : CoreRegistry) : Prop :=
  (∀ n d, lookupDims c.dimsByName n = some d ↔
      ∃ m ∈ c.metrics, (Metric.describe m).Name = n ∧ (Metric.describe m).Dims = d) ∧
  (∀ i, i ∈ c.ids ↔ ∃ m ∈ c.metrics, metricId m = i)

/-- A concrete metadata used to instantiate vector theorems. -/
def wMeta : Metadata :=
  { Name := "m", Help := "h", Dims := ["m", "$k"], DisablePush := false
    constPairs := [], variableLabelNames := ["k"] }

/-- An empty counter vector over wMeta. -/
def wVec : CVector := { meta := wMeta, metrics := [] }

/-- The counter wVec creates for the scrubbed variable value x_. -/
def wCtr : CounterV := { meta := wMeta, labelPairs := [("k", "x_")], val := 0 }

/-- wVec after that counter has been created. -/
def wVec1 : CVector := { meta := wMeta, metrics := [(["x_"], wCtr)] }

/-- A concrete scalar metadata used to instantiate registry theorems. -/
def wScalarMeta : Metadata :=
  { Name := "a", Help := "h", Dims := ["a", "c"], DisablePush := false
    constPairs := [("c", "v")], variableLabelNames := [] }

/-- A concrete counter metric over wScalarMeta. -/
def wCounterMetric : Metric := .counter wScalarMeta 0

/-- A concrete registry used to instantiate the snapshot theorem. -/
def wReg : CoreRegistry :=
  { dimsByName := [("a", ["a", "c"])]
    ids := [wScalarMeta.writeID]
    metrics := [.counter wScalarMeta 3, .gauge wScalarMeta 5] }

end Metrics

namespace Metrics

theorem wrap64_eq_of_range (x : Int) (h0 : -(2 ^ 63) ≤ x) (h1 : x < 2 ^ 63) :
    wrap64 x = x := by
  unfold wrap64
  have ha : (0 : Int) ≤ x + 2 ^ 63 := by linarith
  have hb : x + 2 ^ 63 < 2 ^ 64 := by norm_num; linarith
  rw [Int.emod_eq_of_lt ha hb]
  ring

/-- Claim C2: Counter.Add is a no-op returning the unchanged value for
n ≤ 0; for n > 0 it adds n to the cell (with Go's 64-bit wrap-around) and
returns the new total, which in the absence of overflow is exactly v + n. -/
theorem c2_counter_add (v n : Int) :
    (n ≤ 0 → counterAdd v n = (v, v)) ∧
    (0 < n →
      (counterAdd v n).1 = wrap64 (v + n) ∧
        (counterAdd v n).2 = (counterAdd v n).1 ∧
        (-(2 ^ 63) ≤ v + n → v + n < 2 ^ 63 → counterAdd v n = (v + n, v + n))) := by
  constructor
  · intro h
    simp [counterAdd, h]
  · intro h
    have hn : ¬ n ≤ 0 := by linarith
    refine ⟨by simp [counterAdd, hn, valueAdd], by simp [counterAdd, hn], ?_⟩
    intro h0 h1
    simp [counterAdd, hn, valueAdd, wrap64_eq_of_range (v + n) h0 h1]

theorem c2_counter_add_witness :
    counterAdd 7 (-3) = (7, 7) ∧ counterAdd 7 5 = (12, 12) := by
  constructor
  · exact (c2_counter_add 7 (-3)).1 (by decide)
  · have h := ((c2_counter_add 7 5).2 (by decide)).2.2 (by decide) (by decide)
    simpa using h

/-- Claim C3: with bucket bounds [10, 50, 100], each observation increments
the first bucket whose upper bound is at least the value (the overflow bucket
when none qualifies); after observing -1, 0, 10, 75, 150 the flattened
ascending view is [10, 10, 10, 100, int64Max]. -/
theorem c3_histogram_flatten :
    histoValues
        ([-1, 0, 10, 75, 150].foldl observeInt
          { bounds := [10, 50, 100], counts := [0, 0, 0], overflow := 0 }) =
      [10, 10, 10, 100, int64Max] ∧
    List.findIdx? (fun b => (-1 : Int) ≤ b) [10, 50, 100] = some 0 ∧
    List.findIdx? (fun b => (0 : Int) ≤ b) [10, 50, 100] = some 0 ∧
    List.findIdx? (fun b => (10 : Int) ≤ b) [10, 50, 100] = some 0 ∧
    List.findIdx? (fun b => (75 : Int) ≤ b) [10, 50, 100] = some 2 ∧
    List.findIdx? (fun b => (150 : Int) ≤ b) [10, 50, 100] = none := by
  refine ⟨?_, ?_, ?_, ?_, ?_, ?_⟩ <;> decide

theorem runOps_pushing (ops : List RootOp) :
    ∀ r : RootSt, r.pushing = true → (runOps r ops).pushing = true := by
  induction ops with
  | nil => intro r h; exact h
  | cons op rest ih =>
    intro r h
    cases op with
    | push => exact ih (rootPush r).1 (by simp [rootPush, h])
    | stop => exact ih (rootStop r) h

/-- Claim C5: the first Push on a fresh root succeeds, and after it every
further Push fails no matter which sequence of Push and Stop calls happened
in between, because Stop never clears the pushing flag. -/
theorem c5_push_flag_sticky :
    (rootPush newRoot).2 = true ∧
    ∀ ops : List RootOp, (rootPush (runOps (rootPush newRoot).1 ops)).2 = false := by
  constructor
  · rfl
  · intro ops
    have h : (runOps (rootPush newRoot).1 ops).pushing = true :=
      runOps_pushing ops _ (by rfl)
    generalize hg : runOps (rootPush newRoot).1 ops = r at h
    simp [rootPush, h]

/-- Claim C8: when register returns an error, the registry state is exactly
the pre-call state: both error returns happen before any of the three state
updates. -/
theorem c8_register_atomic_on_error (c : CoreRegistry) (m : Metric) (e : RegErr)
    (h : (register c m).2 = some e) : (register c m).1 = c := by
  unfold register registerRest at h ⊢
  cases hl : lookupDims c.dimsByName m.describe.Name with
  | none =>
    rw [hl] at h
    by_cases hid : m.describe.writeID ∈ c.ids
    · simp [hid]
    · simp [hid] at h
  | some existing =>
    rw [hl] at h
    by_cases hd : existing ≠ m.describe.Dims
    · simp [hd]
    · by_cases hid : m.describe.writeID ∈ c.ids
      · simp [hd, hid]
      · simp [hd, hid] at h

theorem c8_register_atomic_on_error_witness :
    (register (register emptyRegistry wCounterMetric).1 wCounterMetric).1 =
      (register emptyRegistry wCounterMetric).1 :=
  c8_register_atomic_on_error (register emptyRegistry wCounterMetric).1
    wCounterMetric (.duplicateId "a") (by decide)

/-- Claim C10: the nil-receiver branches are total no-ops: a nil Counter's
Add, Inc and Load return 0 without mutating, and a nil HistogramVector's Get
returns a nil histogram with no error while MustGet returns nil without
panicking. -/
theorem c10_nil_receivers_noop :
    (∀ n : Int, counterAddP none n = (none, 0)) ∧
    counterIncP none = (none, 0) ∧
    counterLoadP none = 0 ∧
    (∀ labels : List String, hvGetP none labels = .ok none) ∧
    (∀ labels : List String, hvMustGetP none labels = (none, false)) :=
  ⟨fun _ => rfl, rfl, rfl, fun _ => rfl, fun _ => rfl⟩

theorem orderScan_eq_none_iff (labels : List String) :
    ∀ (es : List String) (i : Nat),
      orderScan labels i es = none ↔
        ∀ j < es.length, es.getD j "" = labels.getD (2 * (i + j)) "" := by
  intro es
  induction es with
  | nil => intro i; simp [orderScan]
  | cons e es ih =>
    intro i
    by_cases he : e = labels.getD (2 * i) ""
    · simp only [orderScan, he, ne_eq, not_true_eq_false, if_false, ih (i + 1)]
      constructor
      · intro hrec j hj
        cases j with
        | zero => simp [← he]
        | succ j =>
          have hr := hrec j (by simpa using hj)
          have : 2 * (i + 1 + j) = 2 * (i + (j + 1)) := by ring
          rw [this] at hr
          simpa using hr
      · intro hall j hj
        have hr := hall (j + 1) (by simpa using hj)
        have : 2 * (i + (j + 1)) = 2 * (i + 1 + j) := by ring
        rw [this] at hr
        simpa using hr
    · simp only [orderScan, he, ne_eq, not_false_eq_true, if_true]
      constructor
      · intro hc; cases hc
      · intro hall
        exact absurd (by simpa using hall 0 (by simp)) he

theorem getOrCreate_isOk_iff (vec : CVector) (labels : List String) :
    (vec.getOrCreate labels).isOk = true ↔
      vec.meta.ValidateVariableLabels labels = none := by
  unfold CVector.getOrCreate
  cases hv : vec.meta.ValidateVariableLabels labels with
  | some e => simp [Except.isOk, Except.toBool]
  | none =>
    cases hk : lookupKey vec.metrics (valsDigest labels) with
    | some m => simp [Except.isOk, Except.toBool]
    | none => simp [Except.isOk, Except.toBool]

/-- Claim C4: on a vector, Get fails exactly when the supplied string count
differs from twice the declared variable-label count or the supplied names
are not the declared names in declared order (a wrong count yields the
cardinality error), and MustGet panics exactly when Get returns an error. -/
theorem c4_vector_get_validation (vec : CVector) (labels : List String) :
    ((vec.get labels).isOk = false ↔
      labels.length ≠ 2 * vec.meta.variableLabelNames.length ∨
        ∃ i < vec.meta.variableLabelNames.length,
          vec.meta.variableLabelNames.getD i "" ≠ labels.getD (2 * i) "") ∧
    (labels.length ≠ 2 * vec.meta.variableLabelNames.length →
      vec.meta.ValidateVariableLabels labels = some .cardinality) ∧
    ((vec.mustGet labels).2 = true ↔ (vec.get labels).isOk = false) := by
  refine ⟨?_, ?_, ?_⟩
  · show ((vec.getOrCreate labels).isOk = false) ↔ _
    rw [Bool.eq_false_iff, ne_eq, getOrCreate_isOk_iff]
    unfold Metadata.ValidateVariableLabels
    by_cases hlen : labels.length = 2 * vec.meta.variableLabelNames.length
    · simp only [hlen, ne_eq, not_true_eq_false, if_false, false_or]
      rw [orderScan_eq_none_iff]
      push_neg
      constructor
      · rintro ⟨j, hj, hne⟩
        exact ⟨j, hj, by simpa using hne⟩
      · rintro ⟨j, hj, hne⟩
        exact ⟨j, hj, by simpa using hne⟩
    · simp [hlen]
  · intro h
    unfold Metadata.ValidateVariableLabels
    simp [h]
  · unfold CVector.mustGet CVector.get
    cases h : vec.getOrCreate labels with
    | error e => simp [Except.isOk, Except.toBool]
    | ok r => simp [Except.isOk, Except.toBool]

theorem c4_vector_get_validation_witness :
    (wVec.get ["k"]).isOk = false ∧
    wVec.meta.ValidateVariableLabels ["k"] = some .cardinality ∧
    (wVec.mustGet ["z", "x"]).2 = true :=
  ⟨(c4_vector_get_validation wVec ["k"]).1.mpr (Or.inl (by decide)),
    (c4_vector_get_validation wVec ["k"]).2.1 (by decide),
    (c4_vector_get_validation wVec ["z", "x"]).2.2.mpr
      ((c4_vector_get_validation wVec ["z", "x"]).1.mpr
        (Or.inr ⟨0, by decide, by decide⟩))⟩

theorem str_empty_append (s : String) : "" ++ s = s := by
  obtain ⟨d⟩ := s
  rfl

theorem foldl_digestAdd {β : Type} (g : β → String) :
    ∀ (l : List β) (acc : List String),
      l.foldl (fun d i => digestAdd d "" (g i)) acc = acc ++ l.map fun i => g i := by
  intro l
  induction l with
  | nil => intro acc; simp
  | cons b bs ih =>
    intro acc
    rw [List.foldl_cons, ih, List.map_cons]
    simp [digestAdd, str_empty_append]

theorem valsDigest_eq_scrubbedVals (labels : List String) :
    valsDigest labels = scrubbedVals labels := by
  unfold valsDigest scrubbedVals
  rw [foldl_digestAdd]
  simp

theorem lookupKey_append_self {α : Type} (k : List String) (m : α) :
    ∀ l : List (List String × α),
      lookupKey l k = none → lookupKey (l ++ [(k, m)]) k = some m := by
  intro l
  induction l with
  | nil => intro _; simp [lookupKey]
  | cons p ps ih =>
    intro h
    rw [List.cons_append]
    simp only [lookupKey] at h ⊢
    by_cases hp : p.1 = k
    · rw [if_pos hp] at h; cases h
    · rw [if_neg hp] at h
      rw [if_neg hp]
      exact ih h

theorem getOrCreate_hit (vec : CVector) (ls : List String) (m : CounterV)
    (hval : vec.meta.ValidateVariableLabels ls = none)
    (hk : lookupKey vec.metrics (valsDigest ls) = some m) :
    vec.getOrCreate ls = .ok (m, vec) := by
  unfold CVector.getOrCreate
  rw [hval, hk]

/-- Claim C9: a vector's map is keyed by the digest of the scrubbed variable
label values only, so two valid label lists whose values scrub to the same
strings resolve to the same underlying metric instance, and the second
lookup leaves the vector unchanged. -/
theorem c9_vector_key_scrubbed_values (vec : CVector) (ls1 ls2 : List String)
    (h2 : vec.meta.ValidateVariableLabels ls2 = none)
    (hv : scrubbedVals ls1 = scrubbedVals ls2)
    (m1 : CounterV) (vec1 : CVector)
    (h : vec.getOrCreate ls1 = .ok (m1, vec1)) :
    vec1.getOrCreate ls2 = .ok (m1, vec1) := by
  have hkey : valsDigest ls1 = valsDigest ls2 := by
    rw [valsDigest_eq_scrubbedVals, valsDigest_eq_scrubbedVals, hv]
  unfold CVector.getOrCreate at h
  cases hv1 : vec.meta.ValidateVariableLabels ls1 with
  | some e => rw [hv1] at h; cases h
  | none =>
    rw [hv1] at h
    cases hk : lookupKey vec.metrics (valsDigest ls1) with
    | some m =>
      rw [hk] at h
      simp only [Except.ok.injEq, Prod.mk.injEq] at h
      obtain ⟨hm, hvec⟩ := h
      refine getOrCreate_hit vec1 ls2 m1 ?_ ?_
      · rw [← hvec]; exact h2
      · rw [← hvec, ← hkey, ← hm]; exact hk
    | none =>
      rw [hk] at h
      simp only [Except.ok.injEq, Prod.mk.injEq] at h
      obtain ⟨hm, hvec⟩ := h
      refine getOrCreate_hit vec1 ls2 m1 ?_ ?_
      · rw [← hvec]; exact h2
      · rw [← hvec, ← hkey, ← hm]
        exact lookupKey_append_self _ _ _ hk

theorem c9_vector_key_scrubbed_values_witness :
    scrubbedVals ["k", "x!"] = scrubbedVals ["k", "x&"] ∧
    wVec.getOrCreate ["k", "x!"] = .ok (wCtr, wVec1) ∧
    wVec1.getOrCreate ["k", "x&"] = .ok (wCtr, wVec1) :=
  ⟨by decide, rfl,
    c9_vector_key_scrubbed_values wVec ["k", "x!"] ["k", "x&"] (by decide) (by decide)
      wCtr wVec1 rfl⟩

theorem findDupScrub_eq_none_iff :
    ∀ (ns seen : List String),
      findDupScrub seen ns = none ↔
        (ns.map scrubName).Nodup ∧ ∀ x ∈ ns.map scrubName, x ∉ seen := by
  intro ns
  induction ns with
  | nil => intro seen; simp [findDupScrub]
  | cons n rest ih =>
    intro seen
    by_cases hm : scrubName n ∈ seen
    · simp only [findDupScrub, if_pos hm]
      constructor
      · intro hc; cases hc
      · rintro ⟨_, hall⟩
        exact absurd hm (hall (scrubName n) (by simp))
    · simp only [findDupScrub, if_neg hm, ih (scrubName n :: seen), List.map_cons,
        List.nodup_cons, List.mem_cons, not_or]
      aesop

theorem findVarErr_eq_none_iff (constSet : List String) :
    ∀ (ns seen : List String),
      findVarErr constSet seen ns = none ↔
        (ns.map scrubName).Nodup ∧ (∀ x ∈ ns.map scrubName, x ∉ seen) ∧
          ∀ x ∈ ns.map scrubName, x ∉ constSet := by
  intro ns
  induction ns with
  | nil => intro seen; simp [findVarErr]
  | cons n rest ih =>
    intro seen
    by_cases hm : scrubName n ∈ seen
    · simp only [findVarErr, if_pos hm]
      constructor
      · intro hc; cases hc
      · rintro ⟨_, hall, _⟩
        exact absurd hm (hall (scrubName n) (by simp))
    · by_cases hc : scrubName n ∈ constSet
      · simp only [findVarErr, if_neg hm, if_pos hc]
        constructor
        · intro hx; cases hx
        · rintro ⟨_, _, hall⟩
          exact absurd hc (hall (scrubName n) (by simp))
      · simp only [findVarErr, if_neg hm, if_neg hc, ih (scrubName n :: seen),
          List.map_cons, List.nodup_cons, List.mem_cons, not_or]
        aesop

/-- Claim C6: metadata construction scrubs every tag name and value and
fails exactly when two constant tag names scrub to the same string, two
variable tag names scrub to the same string, or a variable tag name scrubs
to the same string as a constant tag name. -/
theorem c6_metadata_scrub_collisions (o : Opts) :
    (newMetadata o).isOk = false ↔
      ¬ ((o.Labels.map Prod.fst).map scrubName).Nodup ∨
        ¬ (o.VariableLabels.map scrubName).Nodup ∨
        ∃ v ∈ o.VariableLabels,
          scrubName v ∈ (o.Labels.map Prod.fst).map scrubName := by
  have hperm : (sortStrings (o.Labels.map Prod.fst)).Perm (o.Labels.map Prod.fst) :=
    List.perm_insertionSort strLe (o.Labels.map Prod.fst)
  have hpermmap :
      ((sortStrings (o.Labels.map Prod.fst)).map scrubName).Perm
        ((o.Labels.map Prod.fst).map scrubName) :=
    hperm.map scrubName
  simp only [newMetadata]
  cases hd : findDupScrub [] (sortStrings (o.Labels.map Prod.fst)) with
  | some n =>
    have hne : ¬ (findDupScrub [] (sortStrings (o.Labels.map Prod.fst)) = none) := by
      rw [hd]; simp
    rw [findDupScrub_eq_none_iff] at hne
    simp only [Except.isOk, Except.toBool, true_iff]
    left
    intro hnd
    exact hne ⟨hpermmap.nodup_iff.mpr hnd, by simp⟩
  | none =>
    have hdn := hd
    rw [findDupScrub_eq_none_iff] at hdn
    have hconstnd : ((o.Labels.map Prod.fst).map scrubName).Nodup :=
      hpermmap.nodup_iff.mp hdn.1
    cases hv : findVarErr ((sortStrings (o.Labels.map Prod.fst)).map scrubName) []
        o.VariableLabels with
    | some e =>
      simp only [Except.isOk, Except.toBool, true_iff]
      have hne : ¬ (findVarErr ((sortStrings (o.Labels.map Prod.fst)).map scrubName) []
          o.VariableLabels = none) := by rw [hv]; simp
      rw [findVarErr_eq_none_iff] at hne
      by_cases hvnd : (o.VariableLabels.map scrubName).Nodup
      · right; right
        by_contra hno
        push_neg at hno
        apply hne
        refine ⟨hvnd, fun x hx => by simp, fun x hx => ?_⟩
        obtain ⟨v, hvmem, hveq⟩ := List.mem_map.mp hx
        intro hxc
        exact hno v hvmem (hveq ▸ hpermmap.mem_iff.mp hxc)
      · right; left; exact hvnd
    | none =>
      have hvn := hv
      rw [findVarErr_eq_none_iff] at hvn
      refine iff_of_false (by simp [Except.isOk, Except.toBool]) ?_
      rintro (h | h | ⟨v, hvmem, hvc⟩)
      · exact h hconstnd
      · exact h hvn.1
      · exact hvn.2.2 (scrubName v) (List.mem_map_of_mem scrubName hvmem)
          (hpermmap.mem_iff.mpr hvc)


theorem lookupDims_insertDims_self (k : String) (v : List String) :
    ∀ l : List (String × List String), lookupDims (insertDims k v l) k = some v := by
  intro l
  induction l with
  | nil => simp [insertDims, lookupDims]
  | cons p ps ih =>
    by_cases hp : p.1 = k
    · simp [insertDims, hp, lookupDims]
    · simp only [insertDims, if_neg hp, lookupDims]
      exact ih

theorem wf_empty : wf emptyRegistry := by
  constructor
  · intro n d
    simp [emptyRegistry, lookupDims]
  · intro i
    simp [emptyRegistry]

/-- Claim C1: register fails whenever an already-registered metric shares the
name but not the dimensions signature, fails whenever one shares the identity
digest, and otherwise succeeds, appending the metric to the ordered list and
recording its name-to-dimensions binding and identity digest. -/
theorem c1_register_uniqueness (c : CoreRegistry) (m : Metric) (hwf : wf c) :
    ((∃ m2 ∈ c.metrics, (Metric.describe m2).Name = (Metric.describe m).Name ∧
        (Metric.describe m2).Dims ≠ (Metric.describe m).Dims) →
      (register c m).2.isSome = true) ∧
    ((∃ m2 ∈ c.metrics, metricId m2 = metricId m) →
      (register c m).2.isSome = true) ∧
    ((¬ ∃ m2 ∈ c.metrics, (Metric.describe m2).Name = (Metric.describe m).Name ∧
        (Metric.describe m2).Dims ≠ (Metric.describe m).Dims) →
      (¬ ∃ m2 ∈ c.metrics, metricId m2 = metricId m) →
      (register c m).2 = none ∧
        (register c m).1.metrics = c.metrics ++ [m] ∧
        lookupDims (register c m).1.dimsByName (Metric.describe m).Name =
          some (Metric.describe m).Dims ∧
        metricId m ∈ (register c m).1.ids) := by
  obtain ⟨hwf1, hwf2⟩ := hwf
  refine ⟨?_, ?_, ?_⟩
  · rintro ⟨m2, hm2, hname, hdims⟩
    have hl : lookupDims c.dimsByName (Metric.describe m).Name =
        some (Metric.describe m2).Dims :=
      (hwf1 _ _).mpr ⟨m2, hm2, hname, rfl⟩
    simp [register, hl, hdims]
  · rintro ⟨m2, hm2, hid⟩
    have hidmem : (Metric.describe m).writeID ∈ c.ids := (hwf2 _).mpr ⟨m2, hm2, hid⟩
    unfold register registerRest
    cases hl : lookupDims c.dimsByName (Metric.describe m).Name with
    | none => simp [hidmem]
    | some existing =>
      by_cases hd : existing ≠ (Metric.describe m).Dims
      · simp [hd]
      · simp [hd, hidmem]
  · intro hA hB
    have hidnot : (Metric.describe m).writeID ∉ c.ids := by
      intro hmem
      obtain ⟨m2, hm2, hid⟩ := (hwf2 _).mp hmem
      exact hB ⟨m2, hm2, hid⟩
    have hmain : register c m =
        ({ dimsByName := insertDims (Metric.describe m).Name (Metric.describe m).Dims
              c.dimsByName
           ids := c.ids ++ [(Metric.describe m).writeID]
           metrics := c.metrics ++ [m] }, none) := by
      unfold register registerRest
      cases hl : lookupDims c.dimsByName (Metric.describe m).Name with
      | none => simp [hidnot]
      | some existing =>
        obtain ⟨m2, hm2, hname, hdims⟩ := (hwf1 _ _).mp hl
        have hde : existing = (Metric.describe m).Dims := by
          by_contra hne
          exact hA ⟨m2, hm2, hname, by rw [hdims]; exact hne⟩
        simp [hde, hidnot]
    rw [hmain]
    exact ⟨rfl, rfl, lookupDims_insertDims_self _ _ _, by simp [metricId]⟩

theorem c1_register_uniqueness_witness :
    (register emptyRegistry wCounterMetric).2 = none ∧
    (register emptyRegistry wCounterMetric).1.metrics =
      emptyRegistry.metrics ++ [wCounterMetric] ∧
    lookupDims (register emptyRegistry wCounterMetric).1.dimsByName
      (Metric.describe wCounterMetric).Name =
      some (Metric.describe wCounterMetric).Dims ∧
    metricId wCounterMetric ∈ (register emptyRegistry wCounterMetric).1.ids :=
  (c1_register_uniqueness emptyRegistry wCounterMetric wf_empty).2.2
    (by simp [emptyRegistry]) (by simp [emptyRegistry])

theorem charLtB_asymm (a b : Char) (h : charLtB a b = true) : charLtB b a = false := by
  simp [charLtB] at h ⊢
  omega

theorem charLtB_trans (a b c : Char) (h1 : charLtB a b = true)
    (h2 : charLtB b c = true) : charLtB a c = true := by
  simp [charLtB] at h1 h2 ⊢
  omega

theorem charLtB_conn (a b : Char) (h1 : charLtB a b = false)
    (h2 : charLtB b a = false) : a = b := by
  simp [charLtB] at h1 h2
  have hn : a.toNat = b.toNat := by omega
  exact Char.ext (UInt32.ext hn)

theorem lexLt_asymm {α : Type} (lt : α → α → Bool)
    (hasym : ∀ a b, lt a b = true → lt b a = false) :
    ∀ as bs, lexLt lt as bs = true → lexLt lt bs as = false := by
  intro as
  induction as with
  | nil =>
    intro bs h
    cases bs with
    | nil => simp [lexLt] at h
    | cons b bs => simp [lexLt]
  | cons a as ih =>
    intro bs h
    cases bs with
    | nil => simp [lexLt] at h
    | cons b bs =>
      simp only [lexLt] at h ⊢
      cases hab : lt a b with
      | true => simp [hab, hasym _ _ hab]
      | false =>
        cases hba : lt b a with
        | true => simp [hab, hba] at h
        | false =>
          simp only [hab, hba, Bool.false_eq_true, if_false] at h ⊢
          exact ih bs h

theorem lexLt_trans {α : Type} (lt : α → α → Bool)
    (htrans : ∀ a b c, lt a b = true → lt b c = true → lt a c = true)
    (hconn : ∀ a b, lt a b = false → lt b a = false → a = b) :
    ∀ as bs cs, lexLt lt as bs = true → lexLt lt bs cs = true →
      lexLt lt as cs = true := by
  intro as
  induction as with
  | nil =>
    intro bs cs h1 h2
    cases bs with
    | nil => simp [lexLt] at h1
    | cons b bs =>
      cases cs with
      | nil => simp [lexLt] at h2
      | cons c cs => simp [lexLt]
  | cons a as ih =>
    intro bs cs h1 h2
    cases bs with
    | nil => simp [lexLt] at h1
    | cons b bs =>
      cases cs with
      | nil => simp [lexLt] at h2
      | cons c cs =>
        simp only [lexLt] at h1 h2 ⊢
        cases hab : lt a b with
        | true =>
          cases hbc : lt b c with
          | true => simp [htrans _ _ _ hab hbc]
          | false =>
            cases hcb : lt c b with
            | true => simp [hbc, hcb] at h2
            | false =>
              have hbceq := hconn _ _ hbc hcb
              subst hbceq
              simp [hab]
        | false =>
          cases hba : lt b a with
          | true => simp [hab, hba] at h1
          | false =>
            have habeq := hconn _ _ hab hba
            subst habeq
            simp only [hab, Bool.false_eq_true, if_false] at h1
            cases hac : lt a c with
            | true => simp [hac]
            | false =>
              cases hca : lt c a with
              | true => simp [hac, hca] at h2
              | false =>
                simp only [hac, hca, Bool.false_eq_true, if_false] at h2 ⊢
                exact ih bs cs h1 h2

theorem lexLt_conn {α : Type} (lt : α → α → Bool)
    (hconn : ∀ a b, lt a b = false → lt b a = false → a = b) :
    ∀ as bs, lexLt lt as bs = false → lexLt lt bs as = false → as = bs := by
  intro as
  induction as with
  | nil =>
    intro bs h1 h2
    cases bs with
    | nil => rfl
    | cons b bs => simp [lexLt] at h1
  | cons a as ih =>
    intro bs h1 h2
    cases bs with
    | nil => simp [lexLt] at h2
    | cons b bs =>
      simp only [lexLt] at h1 h2
      cases hab : lt a b with
      | true => simp [hab] at h1
      | false =>
        cases hba : lt b a with
        | true => simp [hab, hba] at h2
        | false =>
          simp only [hab, hba, Bool.false_eq_true, if_false] at h1 h2
          rw [hconn _ _ hab hba, ih bs h1 h2]

theorem prodLt_asymm {α β : Type} (ltA : α → α → Bool) (ltB : β → β → Bool)
    (hA : ∀ a b, ltA a b = true → ltA b a = false)
    (hB : ∀ a b, ltB a b = true → ltB b a = false) :
    ∀ x y, prodLt ltA ltB x y = true → prodLt ltA ltB y x = false := by
  intro x y h
  obtain ⟨x1, x2⟩ := x
  obtain ⟨y1, y2⟩ := y
  simp only [prodLt] at h ⊢
  cases h1 : ltA x1 y1 with
  | true => simp [hA _ _ h1, h1]
  | false =>
    cases h2 : ltA y1 x1 with
    | true => simp [h1, h2] at h
    | false =>
      simp only [h1, h2, Bool.false_eq_true, if_false] at h ⊢
      exact hB _ _ h

theorem prodLt_trans {α β : Type} (ltA : α → α → Bool) (ltB : β → β → Bool)
    (hAtrans : ∀ a b c, ltA a b = true → ltA b c = true → ltA a c = true)
    (hAconn : ∀ a b, ltA a b = false → ltA b a = false → a = b)
    (hBtrans : ∀ a b c, ltB a b = true → ltB b c = true → ltB a c = true) :
    ∀ x y z, prodLt ltA ltB x y = true → prodLt ltA ltB y z = true →
      prodLt ltA ltB x z = true := by
  intro x y z h1 h2
  obtain ⟨x1, x2⟩ := x
  obtain ⟨y1, y2⟩ := y
  obtain ⟨z1, z2⟩ := z
  simp only [prodLt] at h1 h2 ⊢
  cases hxy : ltA x1 y1 with
  | true =>
    cases hyz : ltA y1 z1 with
    | true => simp [hAtrans _ _ _ hxy hyz]
    | false =>
      cases hzy : ltA z1 y1 with
      | true => simp [hyz, hzy] at h2
      | false =>
        have heq := hAconn _ _ hyz hzy
        subst heq
        simp [hxy]
  | false =>
    cases hyx : ltA y1 x1 with
    | true => simp [hxy, hyx] at h1
    | false =>
      have heq := hAconn _ _ hxy hyx
      subst heq
      simp only [hxy, Bool.false_eq_true, if_false] at h1
      cases hxz : ltA x1 z1 with
      | true => simp [hxz]
      | false =>
        cases hzx : ltA z1 x1 with
        | true => simp [hxz, hzx] at h2
        | false =>
          simp only [hxz, hzx, Bool.false_eq_true, if_false] at h2 ⊢
          exact hBtrans _ _ _ h1 h2

theorem prodLt_conn {α β : Type} (ltA : α → α → Bool) (ltB : β → β → Bool)
    (hAconn : ∀ a b, ltA a b = false → ltA b a = false → a = b)
    (hBconn : ∀ a b, ltB a b = false → ltB b a = false → a = b) :
    ∀ x y, prodLt ltA ltB x y = false → prodLt ltA ltB y x = false → x = y := by
  intro x y h1 h2
  obtain ⟨x1, x2⟩ := x
  obtain ⟨y1, y2⟩ := y
  simp only [prodLt] at h1 h2
  cases hxy : ltA x1 y1 with
  | true => simp [hxy] at h1
  | false =>
    cases hyx : ltA y1 x1 with
    | true => simp [hxy, hyx] at h2
    | false =>
      simp only [hxy, hyx, Bool.false_eq_true, if_false] at h1 h2
      rw [hAconn _ _ hxy hyx, hBconn _ _ h1 h2]

theorem strLt_asymm (a b : String) (h : strLt a b = true) : strLt b a = false :=
  lexLt_asymm charLtB charLtB_asymm a.data b.data h

theorem strLt_trans (a b c : String) (h1 : strLt a b = true)
    (h2 : strLt b c = true) : strLt a c = true :=
  lexLt_trans charLtB charLtB_trans charLtB_conn a.data b.data c.data h1 h2

theorem strLt_conn (a b : String) (h1 : strLt a b = false)
    (h2 : strLt b a = false) : a = b := by
  obtain ⟨da⟩ := a
  obtain ⟨db⟩ := b
  have hd : da = db := lexLt_conn charLtB charLtB_conn da db h1 h2
  rw [hd]

theorem strLt_irrefl (a : String) : strLt a a = false := by
  cases h : strLt a a with
  | false => rfl
  | true => simpa [h] using strLt_asymm a a h

theorem pairLt_asymm (x y : String × String)
    (h : prodLt strLt strLt x y = true) : prodLt strLt strLt y x = false :=
  prodLt_asymm strLt strLt strLt_asymm strLt_asymm x y h

theorem pairLt_trans (x y z : String × String)
    (h1 : prodLt strLt strLt x y = true) (h2 : prodLt strLt strLt y z = true) :
    prodLt strLt strLt x z = true :=
  prodLt_trans strLt strLt strLt_trans strLt_conn strLt_trans x y z h1 h2

theorem pairLt_conn (x y : String × String)
    (h1 : prodLt strLt strLt x y = false) (h2 : prodLt strLt strLt y x = false) :
    x = y :=
  prodLt_conn strLt strLt strLt_conn strLt_conn x y h1 h2

theorem pairsLess_asymm (a b : List (String × String))
    (h : pairsLess a b = true) : pairsLess b a = false :=
  lexLt_asymm (prodLt strLt strLt) pairLt_asymm a b h

theorem pairsLess_trans (a b c : List (String × String))
    (h1 : pairsLess a b = true) (h2 : pairsLess b c = true) : pairsLess a c = true :=
  lexLt_trans (prodLt strLt strLt) pairLt_trans pairLt_conn a b c h1 h2

theorem pairsLess_conn (a b : List (String × String))
    (h1 : pairsLess a b = false) (h2 : pairsLess b a = false) : a = b :=
  lexLt_conn (prodLt strLt strLt) pairLt_conn a b h1 h2

theorem keyLt_asymm (x y : String × List (String × String))
    (h : prodLt strLt pairsLess x y = true) : prodLt strLt pairsLess y x = false :=
  prodLt_asymm strLt pairsLess strLt_asymm pairsLess_asymm x y h

theorem keyLt_trans (x y z : String × List (String × String))
    (h1 : prodLt strLt pairsLess x y = true)
    (h2 : prodLt strLt pairsLess y z = true) : prodLt strLt pairsLess x z = true :=
  prodLt_trans strLt pairsLess strLt_trans strLt_conn pairsLess_trans x y z h1 h2

theorem keyLt_conn (x y : String × List (String × String))
    (h1 : prodLt strLt pairsLess x y = false)
    (h2 : prodLt strLt pairsLess y x = false) : x = y :=
  prodLt_conn strLt pairsLess strLt_conn pairsLess_conn x y h1 h2

theorem simpleLess_eq_key (a b : SimpleSnapshot) :
    simpleLess a b = prodLt strLt pairsLess (a.Name, a.Labels) (b.Name, b.Labels) := by
  unfold simpleLess prodLt
  by_cases h : a.Name = b.Name
  · rw [h]
    simp [strLt_irrefl]
  · simp only [ne_eq, h, not_false_eq_true, if_true]
    cases hab : strLt a.Name b.Name with
    | true => simp [hab]
    | false =>
      cases hba : strLt b.Name a.Name with
      | true => simp [hab, hba]
      | false => exact absurd (strLt_conn _ _ hab hba) h

theorem histoLess_eq_key (a b : HistogramSnapshot) :
    histoLess a b = prodLt strLt pairsLess (a.Name, a.Labels) (b.Name, b.Labels) := by
  unfold histoLess prodLt
  by_cases h : a.Name = b.Name
  · rw [h]
    simp [strLt_irrefl]
  · simp only [ne_eq, h, not_false_eq_true, if_true]
    cases hab : strLt a.Name b.Name with
    | true => simp [hab]
    | false =>
      cases hba : strLt b.Name a.Name with
      | true => simp [hab, hba]
      | false => exact absurd (strLt_conn _ _ hab hba) h

theorem leOf_total {α : Type} (lt : α → α → Bool)
    (hasym : ∀ a b, lt a b = true → lt b a = false) :
    ∀ a b, lt b a = false ∨ lt a b = false := by
  intro a b
  cases h : lt b a with
  | false => exact Or.inl rfl
  | true => exact Or.inr (hasym _ _ h)

theorem leOf_trans {α : Type} (lt : α → α → Bool)
    (htrans : ∀ a b c, lt a b = true → lt b c = true → lt a c = true)
    (hconn : ∀ a b, lt a b = false → lt b a = false → a = b) :
    ∀ a b c, lt b a = false → lt c b = false → lt c a = false := by
  intro a b c h1 h2
  cases hca : lt c a with
  | false => rfl
  | true =>
    exfalso
    cases hbc : lt b c with
    | true =>
      have := htrans _ _ _ hbc hca
      rw [this] at h1
      exact Bool.noConfusion h1
    | false =>
      have heq := hconn _ _ hbc h2
      subst heq
      rw [hca] at h1
      exact Bool.noConfusion h1

theorem simpleLe_total (a b : SimpleSnapshot) : simpleLe a b ∨ simpleLe b a := by
  unfold simpleLe
  rw [simpleLess_eq_key, simpleLess_eq_key]
  exact leOf_total (prodLt strLt pairsLess) keyLt_asymm (a.Name, a.Labels)
    (b.Name, b.Labels)

theorem simpleLe_trans (a b c : SimpleSnapshot) (h1 : simpleLe a b)
    (h2 : simpleLe b c) : simpleLe a c := by
  unfold simpleLe at h1 h2 ⊢
  rw [simpleLess_eq_key] at h1 h2 ⊢
  exact leOf_trans (prodLt strLt pairsLess) keyLt_trans keyLt_conn _ _ _ h1 h2

theorem histoLe_total (a b : HistogramSnapshot) : histoLe a b ∨ histoLe b a := by
  unfold histoLe
  rw [histoLess_eq_key, histoLess_eq_key]
  exact leOf_total (prodLt strLt pairsLess) keyLt_asymm (a.Name, a.Labels)
    (b.Name, b.Labels)

theorem histoLe_trans (a b c : HistogramSnapshot) (h1 : histoLe a b)
    (h2 : histoLe b c) : histoLe a c := by
  unfold histoLe at h1 h2 ⊢
  rw [histoLess_eq_key] at h1 h2 ⊢
  exact leOf_trans (prodLt strLt pairsLess) keyLt_trans keyLt_conn _ _ _ h1 h2

/-- Claim C7: a registry snapshot returns its three slices sorted by name and
then by tag-pair ordering, and equal registry states produce equal snapshots. -/
theorem c7_snapshot_deterministic (c : CoreRegistry) :
    List.Sorted simpleLe (registrySnapshot c).Counters ∧
    List.Sorted simpleLe (registrySnapshot c).Gauges ∧
    List.Sorted histoLe (registrySnapshot c).Histograms ∧
    ∀ c2 : CoreRegistry, c = c2 → registrySnapshot c = registrySnapshot c2 := by
  haveI : IsTotal SimpleSnapshot simpleLe := ⟨simpleLe_total⟩
  haveI : IsTrans SimpleSnapshot simpleLe := ⟨simpleLe_trans⟩
  haveI : IsTotal HistogramSnapshot histoLe := ⟨histoLe_total⟩
  haveI : IsTrans HistogramSnapshot histoLe := ⟨histoLe_trans⟩
  refine ⟨?_, ?_, ?_, fun c2 h => by rw [h]⟩
  · exact List.sorted_insertionSort simpleLe _
  · exact List.sorted_insertionSort simpleLe _
  · exact List.sorted_insertionSort histoLe _

theorem c7_snapshot_deterministic_witness :
    List.Sorted simpleLe (registrySnapshot wReg).Counters ∧
    registrySnapshot wReg = registrySnapshot wReg :=
  ⟨(c7_snapshot_deterministic wReg).1,
    (c7_snapshot_deterministic wReg).2.2.2 wReg rfl⟩

end Metrics
